import Mathlib

/-!
Verification of the `nah` (Native Application Host) repository against its
specification.  The repository ships Conan build recipes
(`conanfile.py`, `examples/conan-sdk/conanfile.py`, `test_package/conanfile.py`);
the core C++ implementation described by the specification is not part of the
repository.  Recipe-level facts (component dependency graph, option handling,
`get_version`, the example SDK's published properties) are embedded directly
from the Python sources.  Core-pipeline facts (version resolver, package codec,
materializer, contract composer) are modelled from the specification, as the
corresponding source files are absent; each such definition carries a doc
comment starting with `Modelled from the spec:`.
-/

deriving instance DecidableEq for Except

namespace Nah

/-! ## Generic comparator infrastructure

Orderings built with `Ordering.then` in the lexicographic style used by
standard semver precedence. -/

/-- Three-way comparison on naturals. -/
def cmpNat (a b : Nat) : Ordering :=
  if a < b then .lt else if a = b then .eq else .gt

/-- Lexicographic extension of a comparator to lists: the empty list is
smaller than any non-empty list; otherwise compare head elements first. -/
def cmpList (c : α → α → Ordering) : List α → List α → Ordering
  | [], [] => .eq
  | [], _ :: _ => .lt
  | _ :: _, [] => .gt
  | a :: as, b :: bs => (c a b).then (cmpList c as bs)

/-! ## Semantic versions

Modelled from the spec: §3 and §4.3.  A version is a `major.minor.patch`
triple with an optional pre-release tag; precedence is "numeric comparison
of major.minor.patch, then pre-release tag ordering per the semver
precedence rules — numeric identifiers compare numerically, alphanumeric
compare lexically, a version with a pre-release tag is lower than the same
version without one".  Alphanumeric identifiers are modelled as their byte
(ASCII code) sequences. -/

/-- Modelled from the spec: one dot-separated pre-release identifier —
either numeric or alphanumeric (kept as its ASCII byte sequence). -/
inductive PreId where
  | num (n : Nat)
  | str (s : List Nat)
deriving DecidableEq

/-- Modelled from the spec: a semantic version `major.minor.patch` with an
optional pre-release tag (`pre = []` means no pre-release tag). -/
structure SemVer where
  major : Nat
  minor : Nat
  patch : Nat
  pre : List PreId := []
deriving DecidableEq

/-- Modelled from the spec: comparison of single pre-release identifiers —
"numeric identifiers compare numerically, alphanumeric compare lexically",
and (per the established semver precedence rules the spec defers to)
numeric identifiers always have lower precedence than alphanumeric ones. -/
def comparePreId : PreId → PreId → Ordering
  | .num a, .num b => cmpNat a b
  | .num _, .str _ => .lt
  | .str _, .num _ => .gt
  | .str a, .str b => cmpList cmpNat a b

/-- Modelled from the spec: identifier-by-identifier comparison of two
non-empty pre-release tags; a tag that is a proper prefix of another is
lower. -/
def comparePreList : List PreId → List PreId → Ordering :=
  cmpList comparePreId

/-- Modelled from the spec: pre-release tag comparison at the version
level — "a version with a pre-release tag is lower than the same version
without one" (an empty list means no tag). -/
def comparePreTop : List PreId → List PreId → Ordering
  | [], [] => .eq
  | [], _ :: _ => .gt
  | _ :: _, [] => .lt
  | a :: as, b :: bs => comparePreList (a :: as) (b :: bs)

/-- Modelled from the spec: standard semver precedence — "numeric comparison
of major.minor.patch, then pre-release tag ordering". -/
def compareSemVer (v w : SemVer) : Ordering :=
  (cmpNat v.major w.major).then ((cmpNat v.minor w.minor).then
    ((cmpNat v.patch w.patch).then (comparePreTop v.pre w.pre)))

/-! ## Version resolver

Modelled from the spec: §4.3.  `resolve(requirement, candidates)` filters the
candidates whose version satisfies the range, selects the highest match by
semver precedence, and fails with `AmbiguousSources` when two distinct
candidates share the identical highest version, or with `NoMatch` when no
candidate satisfies the range.  A range requirement is modelled extensionally
as its satisfaction predicate on versions. -/

/-- Modelled from the spec: §3 `NakCandidate`:
`{version: SemVer, source_uri: string, digest: Digest}`. -/
structure NakCandidate where
  version : SemVer
  source_uri : String
  digest : String
deriving DecidableEq

/-- Modelled from the spec: §4.3 `ResolveError{NoMatch, AmbiguousSources}`. -/
inductive ResolveError where
  | noMatch
  | ambiguousSources
deriving DecidableEq

/-- Modelled from the spec: §4.3 — the highest-precedence candidate of a
non-empty list, found by a left fold. -/
def selectBest (m : NakCandidate) (rest : List NakCandidate) : NakCandidate :=
  rest.foldl
    (fun b c => if compareSemVer b.version c.version = .lt then c else b) m

/-- Modelled from the spec: §4.3 `resolve`.  Filter candidates satisfying the
range, select the highest by semver precedence, fail with `ambiguousSources`
on a tie between two distinct candidates and with `noMatch` when the filter
is empty. -/
def resolve (sat : SemVer → Bool) (cands : List NakCandidate) :
    Except ResolveError NakCandidate :=
  match cands.filter (fun c => sat c.version) with
  | [] => .error .noMatch
  | m :: rest =>
    if (m :: rest).any
        (fun c => decide (compareSemVer c.version (selectBest m rest).version = .eq) &&
          decide (c ≠ selectBest m rest)) then
      .error .ambiguousSources
    else
      .ok (selectBest m rest)

/-- Modelled from the spec: §8's gloss of the caret range — `^1.2.0`
is `>=1.2.0 <2.0.0`.  In general `^M.m.p` is `>=M.m.p <(M+1).0.0`. -/
def caretSat (maj min pat : Nat) (v : SemVer) : Bool :=
  decide (compareSemVer ⟨maj, min, pat, []⟩ v ≠ .gt) &&
    decide (compareSemVer v ⟨maj + 1, 0, 0, []⟩ = .lt)

/-- The candidate set of the spec's §8 resolver example,
`{1.2.0, 1.2.5, 1.3.0, 2.0.0}`. -/
def exampleCandidates : List NakCandidate :=
  [⟨⟨1, 2, 0, []⟩, "https://naks.example/1.2.0", "d120"⟩,
   ⟨⟨1, 2, 5, []⟩, "https://naks.example/1.2.5", "d125"⟩,
   ⟨⟨1, 3, 0, []⟩, "https://naks.example/1.3.0", "d130"⟩,
   ⟨⟨2, 0, 0, []⟩, "https://naks.example/2.0.0", "d200"⟩]

/-! ## Package codec

Modelled from the spec: §4.2 and §6.  The spec's open question (§9) leaves
the exact header layout, compression algorithm and digest algorithm to the
implementer ("a concrete, documented encoding (e.g., a fixed-width header +
a standard cryptographic or checksum digest)").  This model uses:
byte streams as lists of naturals below 256; 32-bit big-endian length
fields; an additive checksum modulo `2^32` over header + compressed
payload as the trailing digest; and the identity ("stored") encoding for
the compression step. -/

/-- Modelled from the spec: §3 — the two archive formats, NAP and NAK. -/
inductive Format where
  | nap
  | nak
deriving DecidableEq

/-- Modelled from the spec: §3 — one payload entry
`(relative_path, byte sequence, mode)`; the path is kept as its byte
sequence. -/
structure PayloadEntry where
  path : List Nat
  data : List Nat
  mode : Nat
deriving DecidableEq

/-- Modelled from the spec: §3 `PackageArchive`:
`{format, manifest_bytes, payload}`. -/
structure PackageArchive where
  format : Format
  manifest_bytes : List Nat
  payload : List PayloadEntry
deriving DecidableEq

/-- Modelled from the spec: §4.2 `PackageError`; the four enumerated kinds
plus the kind used to reject invalid (absolute or parent-escaping) entry
paths, whose name §4.2 leaves open. -/
inductive PackageError where
  | truncatedHeader
  | unsupportedFormatVersion
  | digestMismatch
  | decompressionFailed
  | invalidPath
deriving DecidableEq

/-- One-byte format tag. -/
def formatTag : Format → Nat
  | .nap => 0
  | .nak => 1

/-- Big-endian 4-byte encoding of a 32-bit length/mode/digest field. -/
def u32 (n : Nat) : List Nat :=
  [n / 16777216 % 256, n / 65536 % 256, n / 256 % 256, n % 256]

/-- Value of a big-endian digit stream (base 256). -/
def digestValue (l : List Nat) : Nat :=
  l.foldl (fun a x => a * 256 + x) 0

/-- Modelled from the spec: the trailing integrity digest — an additive
checksum modulo `2^32` computed "over header+compressed-payload". -/
def checksum (l : List Nat) : Nat :=
  l.sum % 4294967296

/-- Modelled from the spec: the compression step; the algorithm is left
open by the spec (§9), so the identity ("stored") encoding is used. -/
def compress (l : List Nat) : List Nat := l

/-- Modelled from the spec: inverse of the compression step. -/
def decompress (l : List Nat) : List Nat := l

/-- Modelled from the spec: §4.2 path validation — "reject absolute paths
and parent-directory escape sequences (`..` components)".  Paths are byte
sequences; `/` is byte 47 and `.` byte 46. -/
def validPath (p : List Nat) : Bool :=
  decide (p.head? ≠ some 47) && (p.splitOn 47).all (fun c => decide (c ≠ [46, 46]))

/-- Per-entry header record: relative path, payload length, mode. -/
def encodeEntryHeader (e : PayloadEntry) : List Nat :=
  u32 e.path.length ++ e.path ++ u32 e.data.length ++ u32 e.mode

/-- Modelled from the spec: §4.2 — the digest-covered part of an encoded
archive: the header (format tag, manifest length and bytes, entry count,
per-entry records) followed by the compressed payload stream. -/
def encodeBody (fmt : Format) (manifest : List Nat)
    (entries : List PayloadEntry) : List Nat :=
  (formatTag fmt :: (u32 manifest.length ++ manifest ++
    u32 entries.length ++ (entries.map encodeEntryHeader).flatten)) ++
    compress (entries.map PayloadEntry.data).flatten

/-- Modelled from the spec: §4.2 `encode(format, manifest_bytes,
payload_entries)` — "serializes a header (format tag, entry count,
per-entry relative path + length + mode), compresses the payload stream,
appends a digest computed over header+compressed-payload".  Entries are
written in the order supplied; no implicit sorting. -/
def encode (fmt : Format) (manifest : List Nat) (entries : List PayloadEntry) :
    List Nat :=
  encodeBody fmt manifest entries ++
    u32 (checksum (encodeBody fmt manifest entries))

/-- Read a big-endian 4-byte field from the front of a stream. -/
def readU32 : List Nat → Option (Nat × List Nat)
  | a :: b :: c :: d :: rest => some (((a * 256 + b) * 256 + c) * 256 + d, rest)
  | _ => none

/-- Read a fixed number of raw bytes from the front of a stream. -/
def readBytes (k : Nat) (s : List Nat) : Option (List Nat × List Nat) :=
  if k ≤ s.length then some (s.take k, s.drop k) else none

/-- Inverse of `formatTag`. -/
def readFormat (t : Nat) : Option Format :=
  if t = 0 then some .nap else if t = 1 then some .nak else none

/-- Read one per-entry header record: `(path, data length, mode)`. -/
def readEntryHeader (s : List Nat) :
    Option ((List Nat × Nat × Nat) × List Nat) :=
  (readU32 s).bind fun a =>
    (readBytes a.1 a.2).bind fun b =>
      (readU32 b.2).bind fun c =>
        (readU32 c.2).bind fun d =>
          some ((b.1, c.1, d.1), d.2)

/-- Read `k` per-entry header records. -/
def readEntryHeaders : Nat → List Nat → Option (List (List Nat × Nat × Nat) × List Nat)
  | 0, s => some ([], s)
  | k + 1, s =>
    (readEntryHeader s).bind fun h =>
      (readEntryHeaders k h.2).bind fun t =>
        some (h.1 :: t.1, t.2)

/-- Slice the decompressed payload stream into entries according to the
header records. -/
def splitPayload : List (List Nat × Nat × Nat) → List Nat →
    Option (List PayloadEntry × List Nat)
  | [], s => some ([], s)
  | h :: hs, s =>
    (readBytes h.2.1 s).bind fun d =>
      (splitPayload hs d.2).bind fun t =>
        some (⟨h.1, d.1, h.2.2⟩ :: t.1, t.2)

/-- Modelled from the spec: §4.2 — parse the already digest-verified body
(header + compressed payload stream), validating entry paths before the
payload stream is sliced. -/
def parseBody (body : List Nat) : Except PackageError PackageArchive :=
  match body with
  | [] => .error .truncatedHeader
  | tag :: s0 =>
    match readFormat tag with
    | none => .error .unsupportedFormatVersion
    | some fmt =>
      match readU32 s0 with
      | none => .error .truncatedHeader
      | some (mlen, s1) =>
        match readBytes mlen s1 with
        | none => .error .truncatedHeader
        | some (manifest, s2) =>
          match readU32 s2 with
          | none => .error .truncatedHeader
          | some (count, s3) =>
            match readEntryHeaders count s3 with
            | none => .error .truncatedHeader
            | some (hdrs, s4) =>
              if hdrs.all (fun h => validPath h.1) then
                match splitPayload hdrs (decompress s4) with
                | none => .error .truncatedHeader
                | some (entries, leftover) =>
                  if leftover = [] then .ok ⟨fmt, manifest, entries⟩
                  else .error .truncatedHeader
              else .error .invalidPath

/-- Modelled from the spec: §4.2 `decode(byte stream)` — "Digest
verification is mandatory and happens before any payload byte is trusted":
the trailing 4-byte digest is checked against the checksum of everything
before it, before the header is parsed. -/
def decode (s : List Nat) : Except PackageError PackageArchive :=
  if s.length < 5 then .error .truncatedHeader
  else
    let body := s.take (s.length - 4)
    let dig := s.drop (s.length - 4)
    if checksum body = digestValue dig then parseBody body
    else .error .digestMismatch

/-- Byte-wise path order used for the canonical (path-lexicographic)
entry order the spec's round-trip property assumes. -/
def pathLe (p q : List Nat) : Bool :=
  decide (cmpList cmpNat p q ≠ .gt)

/-- Entries sorted in canonical path-lexicographic order. -/
def sortedByPath : List PayloadEntry → Bool
  | [] => true
  | [_] => true
  | a :: b :: rest => pathLe a.path b.path && sortedByPath (b :: rest)

/-- Well-formedness of an archive as data: every byte (manifest, path,
payload) is an actual byte, every length/mode field fits the 32-bit header
fields, and every entry path is a valid relative path. -/
def wellFormed (a : PackageArchive) : Bool :=
  a.manifest_bytes.all (fun x => decide (x < 256)) &&
    decide (a.manifest_bytes.length < 4294967296) &&
    decide (a.payload.length < 4294967296) &&
    a.payload.all (fun e =>
      e.path.all (fun x => decide (x < 256)) &&
        e.data.all (fun x => decide (x < 256)) &&
        decide (e.path.length < 4294967296) &&
        decide (e.data.length < 4294967296) &&
        decide (e.mode < 4294967296) &&
        validPath e.path)

/-- Helper for writing concrete entry paths: the byte (code point)
sequence of an ASCII string. -/
def strBytes (s : String) : List Nat :=
  s.data.map Char.toNat

/-! ## Component dependency graph

Embedded from `conanfile.py`, `NahConan.package_info`, static
(`shared=False`) branch: each installed component with its `requires`
list, exactly as written in the recipe. -/

/-- The `(component, requires)` pairs declared in
`NahConan.package_info` for a static build (`conanfile.py:159-212`). -/
def staticComponents : List (String × List String) :=
  [("nahhost",
    ["nah_contract", "nah_config", "nah_platform", "nah_packaging",
     "nah_materializer"]),
   ("nah_materializer",
    ["nah_packaging", "nah_platform", "openssl::crypto", "libcurl::libcurl"]),
   ("nah_contract",
    ["nah_manifest", "nah_config", "nah_platform",
     "nlohmann_json::nlohmann_json", "tomlplusplus::tomlplusplus"]),
   ("nah_manifest", []),
   ("nah_config", ["tomlplusplus::tomlplusplus"]),
   ("nah_platform", []),
   ("nah_packaging",
    ["nah_manifest", "nah_config", "nah_platform", "nah_contract",
     "zlib::zlib"])]

/-- Names of the installed library components. -/
def componentNames : List String :=
  staticComponents.map Prod.fst

/-- The `requires` list of a component. -/
def requiresOf (n : String) : List String :=
  ((staticComponents.find? (fun p => p.1 == n)).map Prod.snd).getD []

/-- The component-to-component dependencies of a component (its `requires`
entries that are themselves installed components rather than external
libraries). -/
def coreRequires (n : String) : List String :=
  (requiresOf n).filter (fun r => componentNames.contains r)

/-- Bounded reachability along component-to-component `requires` edges. -/
def reachable : Nat → String → String → Bool
  | 0, _, _ => false
  | fuel + 1, a, b =>
    (coreRequires a).contains b ||
      (coreRequires a).any (fun d => reachable fuel d b)

/-- No component reaches itself along `requires` edges: the component
dependency graph has no cycle (fuel 7 covers every simple path among the
7 components). -/
def acyclicComponents : Bool :=
  componentNames.all (fun c => !(reachable 7 c c))

/-- The components whose `requires` lists link the TLS / HTTP transport
libraries (`openssl::crypto` or `libcurl::libcurl`). -/
def tlsLinkingComponents : List String :=
  (staticComponents.filter
    (fun p => p.2.contains "openssl::crypto" || p.2.contains "libcurl::libcurl")).map
    Prod.fst

/-! ## Recipe option handling

Embedded from `conanfile.py`: `NahConan.config_options`,
`NahConan.configure` and `NahConan.generate`.  The option state carries
`shared` and the possibly-deleted `fPIC` option; `settings.os` is the
string Conan compares against `"Windows"`. -/

/-- Option state after profile loading: `shared` plus `fPIC`, which may be
deleted (`none`). -/
structure Options where
  shared : Bool
  fPIC : Option Bool
deriving DecidableEq

/-- `NahConan.config_options` (`conanfile.py:59-61`): on Windows, delete
the `fPIC` option. -/
def config_options (os : String) (o : Options) : Options :=
  if os = "Windows" then { o with fPIC := none } else o

/-- `NahConan.configure` (`conanfile.py:63-65`): when `shared`, remove
`fPIC` (safely — no error when already deleted). -/
def configure (o : Options) : Options :=
  if o.shared then { o with fPIC := none } else o

/-- The option state Conan reaches after running `config_options` then
`configure` on a profile with the given `shared` and `fPIC` values. -/
def afterOptionConfig (os : String) (shared fpic : Bool) : Options :=
  configure (config_options os ⟨shared, some fpic⟩)

/-- `NahConan.generate` (`conanfile.py:70-82`): the CMake toolchain
variables it sets, in order.  `CMAKE_POSITION_INDEPENDENT_CODE` is set
only on non-Windows, to `bool(options.get_safe("fPIC", True) or
options.shared)`. -/
def generateVars (os : String) (o : Options) : List (String × Bool) :=
  [("NAH_ENABLE_TESTS", false), ("NAH_ENABLE_TOOLS", false),
   ("NAH_INSTALL", false), ("NAH_BUILD_SHARED", o.shared)] ++
    (if os ≠ "Windows" then
      [("CMAKE_POSITION_INDEPENDENT_CODE", o.fPIC.getD true || o.shared)]
    else [])

/-! ## `get_version`

Embedded from `conanfile.py:9-14`: read the `VERSION` file next to the
recipe and strip it; on any exception return `"1.0.0"`.  The file read is
represented by its outcome: `Except.ok contents` or `Except.error ()`. -/

/-- Python `str.isspace` characters stripped by `str.strip()` (ASCII
whitespace; the model restricts attention to ASCII contents). -/
def isPySpace (c : Char) : Bool :=
  c = ' ' || c = '\t' || c = '\n' || c = '\r' || c = '\x0b' || c = '\x0c'

/-- Python `str.strip()`: drop leading and trailing whitespace. -/
def pyStrip (s : String) : String :=
  ⟨((s.data.dropWhile isPySpace).reverse.dropWhile isPySpace).reverse⟩

/-- `get_version` (`conanfile.py:9-14`): the stripped contents of the
`VERSION` file, or `"1.0.0"` when reading it raises any exception. -/
def get_version (r : Except Unit String) : String :=
  match r with
  | .ok contents => pyStrip contents
  | .error _ => "1.0.0"

/-! ## Materializer network behaviour

Modelled from the spec: §4.4 steps 1-3.  The cache is represented by the
set of `(version, digest)` keys that already hold a completed marker; the
model records the network operations a `materialize` call performs on its
success path: none on a cache hit, one TLS fetch of `source_uri`
otherwise. -/

/-- A network operation: the URI fetched and whether the transport is
encrypted (TLS). -/
structure NetOp where
  uri : String
  tls : Bool
deriving DecidableEq

/-- Modelled from the spec: §4.4 steps 2-3 — the network operations of a
`materialize` call: none when the content-addressed cache path already
holds a completed marker, otherwise one fetch of `candidate.source_uri`
"over an encrypted transport". -/
def materializeNetOps (c : NakCandidate) (cached : List (SemVer × String)) :
    List NetOp :=
  if (c.version, c.digest) ∈ cached then [] else [⟨c.source_uri, true⟩]

/-! ## Contract composer template variables and the example SDK

The composer's variable set and substitution targets are modelled from the
spec (§4.5); the example SDK's published properties are embedded from
`examples/conan-sdk/conanfile.py`, `GameEngineSDK.package_info`
(lines 113-138). -/

/-- Modelled from the spec: §4.5 — the template variable set:
`NAH_APP_ENTRY`, `NAH_APP_ROOT`, `NAH_APP_ID`, `NAH_NAK_ROOT` (absent if
no NAK dependency), plus config-provided pairs. -/
def templateVarNames (hasNak : Bool) (configVars : List String) : List String :=
  ["NAH_APP_ENTRY", "NAH_APP_ROOT", "NAH_APP_ID"] ++
    (if hasNak then ["NAH_NAK_ROOT"] else []) ++ configVars

/-- Modelled from the spec: §4.5 — the package-published properties
`{VAR}` substitution applies to. -/
def substitutionProps : List String :=
  ["loader_exec", "loader_args", "cwd", "environment"]

/-- A published property value: string, string list, or string map. -/
inductive PropValue where
  | str (s : String)
  | strList (l : List String)
  | strMap (m : List (String × String))
deriving DecidableEq

/-- The properties `GameEngineSDK.package_info` publishes, in order
(`examples/conan-sdk/conanfile.py:113-138`). -/
def sdkProperties : List (String × PropValue) :=
  [("nah:nak_id", .str "com.example.gameengine"),
   ("nah:loader_exec", .str "bin/engine-loader"),
   ("nah:loader_args", .strList
     ["--app-entry", "\x7bNAH_APP_ENTRY\x7d",
      "--app-root", "\x7bNAH_APP_ROOT\x7d",
      "--app-id", "\x7bNAH_APP_ID\x7d",
      "--engine-root", "\x7bNAH_NAK_ROOT\x7d"]),
   ("nah:resource_root", .str "resources"),
   ("nah:cwd", .str "\x7bNAH_APP_ROOT\x7d"),
   ("nah:environment", .strMap
     [("GAMEENGINE_VERSION", "1.0.0"), ("GAMEENGINE_LOG_LEVEL", "info")])]

/-- The loader argument template the example SDK publishes. -/
def sdkLoaderArgs : List String :=
  ["--app-entry", "\x7bNAH_APP_ENTRY\x7d",
   "--app-root", "\x7bNAH_APP_ROOT\x7d",
   "--app-id", "\x7bNAH_APP_ID\x7d",
   "--engine-root", "\x7bNAH_NAK_ROOT\x7d"]

/-- State machine collecting the names of `\x7bVAR\x7d` placeholders in a
character stream: `acc` holds the characters of the placeholder currently
being read (reversed), `inBrace` whether a `\x7b` is open. -/
def scanPlaceholders : List Char → List Char → Bool → List String
  | [], _, _ => []
  | c :: cs, acc, inBrace =>
    if inBrace then
      if c = '\x7d' then ⟨acc.reverse⟩ :: scanPlaceholders cs [] false
      else scanPlaceholders cs (c :: acc) true
    else if c = '\x7b' then scanPlaceholders cs [] true
    else scanPlaceholders cs acc false

/-- The `\x7bVAR\x7d` placeholder names occurring in a string, in order. -/
def placeholdersOf (s : String) : List String :=
  scanPlaceholders s.data [] false

/-! ## Theorems -/

theorem then_eq_eq_iff (o p : Ordering) : o.then p = .eq ↔ o = .eq ∧ p = .eq := by
  cases o <;> simp [Ordering.then]

theorem then_swap (o p : Ordering) : (o.then p).swap = o.swap.then p.swap := by
  cases o <;> rfl

theorem eq_of_self_swap (o : Ordering) : o = o.swap → o = .eq := by
  cases o <;> simp [Ordering.swap]

theorem cmpNat_lt_iff (a b : Nat) : cmpNat a b = .lt ↔ a < b := by
  unfold cmpNat
  split <;> [simp_all; skip]
  split <;> simp_all

theorem cmpNat_eq_iff (a b : Nat) : cmpNat a b = .eq ↔ a = b := by
  unfold cmpNat
  split <;> [simp_all <;> omega; skip]
  split <;> simp_all

theorem cmpNat_swap (a b : Nat) : cmpNat b a = (cmpNat a b).swap := by
  unfold cmpNat
  rcases Nat.lt_trichotomy a b with h | h | h
  · rw [if_neg (by omega), if_neg (by omega), if_pos h]; rfl
  · rw [if_neg (by omega), if_pos h.symm, if_neg (by omega), if_pos h]; rfl
  · rw [if_pos h, if_neg (by omega), if_neg (by omega)]; rfl

theorem cmpNat_lt_trans {a b c : Nat} (h1 : cmpNat a b = .lt)
    (h2 : cmpNat b c = .lt) : cmpNat a c = .lt := by
  rw [cmpNat_lt_iff] at h1 h2 ⊢
  omega

theorem cmpList_eq_of {c : α → α → Ordering}
    (hc : ∀ a b, c a b = .eq → a = b) :
    ∀ as bs, cmpList c as bs = .eq → as = bs := by
  intro as
  induction as with
  | nil => intro bs h; cases bs <;> simp_all [cmpList]
  | cons a as ih =>
    intro bs h
    cases bs with
    | nil => simp [cmpList] at h
    | cons b bs =>
      rw [cmpList, then_eq_eq_iff] at h
      rw [hc a b h.1, ih bs h.2]

theorem cmpList_swap {c : α → α → Ordering}
    (hc : ∀ a b, c b a = (c a b).swap) :
    ∀ as bs, cmpList c bs as = (cmpList c as bs).swap := by
  intro as
  induction as with
  | nil => intro bs; cases bs <;> rfl
  | cons a as ih =>
    intro bs
    cases bs with
    | nil => rfl
    | cons b bs => rw [cmpList, cmpList, then_swap, hc, ih]

theorem cmp_refl_of_swap {c : α → α → Ordering}
    (hcsw : ∀ a b, c b a = (c a b).swap) (a : α) : c a a = .eq :=
  eq_of_self_swap _ (hcsw a a)

theorem cmpList_lt_trans {c : α → α → Ordering}
    (hceq : ∀ a b, c a b = .eq → a = b)
    (hcsw : ∀ a b, c b a = (c a b).swap)
    (hctr : ∀ {a b d}, c a b = .lt → c b d = .lt → c a d = .lt) :
    ∀ as bs cs, cmpList c as bs = .lt → cmpList c bs cs = .lt →
      cmpList c as cs = .lt := by
  intro as
  induction as with
  | nil =>
    intro bs cs h1 h2
    cases bs with
    | nil => simp [cmpList] at h1
    | cons b bs =>
      cases cs with
      | nil => simp [cmpList] at h2
      | cons d ds => simp [cmpList]
  | cons a as ih =>
    intro bs cs h1 h2
    cases bs with
    | nil => simp [cmpList] at h1
    | cons b bs =>
      cases cs with
      | nil => simp [cmpList] at h2
      | cons d ds =>
        rw [cmpList] at h1 h2 ⊢
        rcases hab : c a b with _ | _ | _ <;> rw [hab] at h1
        · rcases hbd : c b d with _ | _ | _ <;> rw [hbd] at h2
          · rw [hctr hab hbd]; rfl
          · have hb : b = d := hceq b d hbd
            rw [← hb, hab]; rfl
          · simp [Ordering.then] at h2
        · have hb : a = b := hceq a b hab
          subst hb
          rcases had : c a d with _ | _ | _ <;> rw [had] at h2
          · rfl
          · simp only [Ordering.then] at h1 h2 ⊢
            exact ih bs ds h1 h2
          · simp [Ordering.then] at h2
        · simp [Ordering.then] at h1

theorem comparePreId_eq_of : ∀ a b, comparePreId a b = .eq → a = b := by
  intro a b h
  cases a <;> cases b
  · exact congrArg PreId.num ((cmpNat_eq_iff _ _).mp h)
  · exact absurd h (by simp [comparePreId])
  · exact absurd h (by simp [comparePreId])
  · exact congrArg PreId.str
      (cmpList_eq_of (fun x y => (cmpNat_eq_iff x y).mp) _ _ h)

theorem comparePreId_swap : ∀ a b, comparePreId b a = (comparePreId a b).swap := by
  intro a b
  cases a <;> cases b
  · exact cmpNat_swap _ _
  · rfl
  · rfl
  · exact cmpList_swap cmpNat_swap _ _

theorem comparePreId_lt_trans : ∀ {a b d}, comparePreId a b = .lt →
    comparePreId b d = .lt → comparePreId a d = .lt := by
  intro a b d h1 h2
  cases a <;> cases b <;> cases d
  · exact cmpNat_lt_trans h1 h2
  · rfl
  · exact absurd h2 (by simp [comparePreId])
  · rfl
  · exact absurd h1 (by simp [comparePreId])
  · exact absurd h1 (by simp [comparePreId])
  · exact absurd h2 (by simp [comparePreId])
  · exact cmpList_lt_trans (fun x y => (cmpNat_eq_iff x y).mp) cmpNat_swap
      (fun hx hy => cmpNat_lt_trans hx hy) _ _ _ h1 h2

theorem comparePreTop_eq_of : ∀ a b, comparePreTop a b = .eq → a = b := by
  intro a b h
  cases a <;> cases b
  · rfl
  · exact absurd h (by simp [comparePreTop])
  · exact absurd h (by simp [comparePreTop])
  · exact cmpList_eq_of comparePreId_eq_of _ _ h

theorem comparePreTop_swap : ∀ a b, comparePreTop b a = (comparePreTop a b).swap := by
  intro a b
  cases a <;> cases b
  · rfl
  · rfl
  · rfl
  · exact cmpList_swap comparePreId_swap _ _

theorem comparePreTop_lt_trans : ∀ {a b d}, comparePreTop a b = .lt →
    comparePreTop b d = .lt → comparePreTop a d = .lt := by
  intro a b d h1 h2
  cases a with
  | nil => cases b <;> simp [comparePreTop] at h1
  | cons a as =>
    cases b with
    | nil => cases d <;> simp [comparePreTop] at h2
    | cons b bs =>
      cases d with
      | nil => rfl
      | cons d ds =>
        exact cmpList_lt_trans comparePreId_eq_of comparePreId_swap
          comparePreId_lt_trans _ _ _ h1 h2

theorem natThen_lt_trans {x y z : Nat} {p q r : Ordering}
    (hp : p = .lt → q = .lt → r = .lt)
    (h1 : (cmpNat x y).then p = .lt) (h2 : (cmpNat y z).then q = .lt) :
    (cmpNat x z).then r = .lt := by
  rcases hxy : cmpNat x y with _ | _ | _ <;> rw [hxy] at h1 <;>
    rcases hyz : cmpNat y z with _ | _ | _ <;> rw [hyz] at h2 <;>
    simp [Ordering.then] at h1 h2
  · simp [cmpNat_lt_trans hxy hyz, Ordering.then]
  · rw [(cmpNat_eq_iff _ _).mp hyz] at hxy
    simp [hxy, Ordering.then]
  · rw [← (cmpNat_eq_iff _ _).mp hxy] at hyz
    simp [hyz, Ordering.then]
  · rw [(cmpNat_eq_iff _ _).mpr
      (((cmpNat_eq_iff _ _).mp hxy).trans ((cmpNat_eq_iff _ _).mp hyz))]
    simp only [Ordering.then]
    exact hp h1 h2

theorem compareSemVer_eq_of {v w : SemVer} (h : compareSemVer v w = .eq) :
    v = w := by
  unfold compareSemVer at h
  rw [then_eq_eq_iff, then_eq_eq_iff, then_eq_eq_iff] at h
  obtain ⟨h1, h2, h3, h4⟩ := h
  have e1 := (cmpNat_eq_iff _ _).mp h1
  have e2 := (cmpNat_eq_iff _ _).mp h2
  have e3 := (cmpNat_eq_iff _ _).mp h3
  have e4 := comparePreTop_eq_of _ _ h4
  cases v; cases w
  simp only [SemVer.mk.injEq]
  exact ⟨e1, e2, e3, e4⟩

theorem compareSemVer_swap (v w : SemVer) :
    compareSemVer w v = (compareSemVer v w).swap := by
  unfold compareSemVer
  rw [cmpNat_swap v.major w.major, cmpNat_swap v.minor w.minor,
    cmpNat_swap v.patch w.patch, comparePreTop_swap v.pre w.pre,
    ← then_swap, ← then_swap, ← then_swap]

theorem compareSemVer_refl (v : SemVer) : compareSemVer v v = .eq :=
  cmp_refl_of_swap compareSemVer_swap v

theorem compareSemVer_lt_trans {u v w : SemVer}
    (h1 : compareSemVer u v = .lt) (h2 : compareSemVer v w = .lt) :
    compareSemVer u w = .lt := by
  unfold compareSemVer at h1 h2 ⊢
  refine natThen_lt_trans (fun a1 a2 => ?_) h1 h2
  refine natThen_lt_trans (fun b1 b2 => ?_) a1 a2
  exact natThen_lt_trans (fun c1 c2 => comparePreTop_lt_trans c1 c2) b1 b2

theorem compareSemVer_le_trans {u v w : SemVer}
    (h1 : compareSemVer u v ≠ .gt) (h2 : compareSemVer v w ≠ .gt) :
    compareSemVer u w ≠ .gt := by
  rcases huv : compareSemVer u v with _ | _ | _
  · rcases hvw : compareSemVer v w with _ | _ | _
    · rw [compareSemVer_lt_trans huv hvw]; simp
    · rw [← compareSemVer_eq_of hvw, huv]; simp
    · exact absurd hvw h2
  · rw [compareSemVer_eq_of huv]; exact h2
  · exact absurd huv h1

theorem compareSemVer_eq_of_le_ge {v w : SemVer}
    (h1 : compareSemVer v w ≠ .gt) (h2 : compareSemVer w v ≠ .gt) : v = w := by
  rcases h : compareSemVer v w with _ | _ | _
  · have hs := compareSemVer_swap v w
    rw [h] at hs
    exact absurd hs h2
  · exact compareSemVer_eq_of h
  · exact absurd h h1

theorem selectBest_mem (m : NakCandidate) (rest : List NakCandidate) :
    selectBest m rest ∈ m :: rest := by
  unfold selectBest
  induction rest generalizing m with
  | nil => exact List.mem_cons_self m []
  | cons c cs ih =>
    rw [List.foldl_cons]
    rcases List.mem_cons.mp
        (ih (if compareSemVer m.version c.version = .lt then c else m)) with
      h | h
    · rw [h]
      by_cases hlt : compareSemVer m.version c.version = .lt
      · rw [if_pos hlt]
        exact List.mem_cons_of_mem _ (List.mem_cons_self c cs)
      · rw [if_neg hlt]
        exact List.mem_cons_self m _
    · exact List.mem_cons_of_mem _ (List.mem_cons_of_mem _ h)

theorem selectBest_max (m : NakCandidate) (rest : List NakCandidate) :
    ∀ x ∈ m :: rest,
      compareSemVer x.version (selectBest m rest).version ≠ .gt := by
  unfold selectBest
  induction rest generalizing m with
  | nil =>
    intro x hx
    rcases List.mem_cons.mp hx with h | h
    · rw [h]; simp [compareSemVer_refl]
    · exact absurd h (List.not_mem_nil x)
  | cons c cs ih =>
    intro x hx
    rw [List.foldl_cons]
    have hm : compareSemVer m.version
        (if compareSemVer m.version c.version = .lt then c else m).version ≠ .gt := by
      by_cases hlt : compareSemVer m.version c.version = .lt
      · rw [if_pos hlt]; simp [hlt]
      · rw [if_neg hlt]; simp [compareSemVer_refl]
    have hc : compareSemVer c.version
        (if compareSemVer m.version c.version = .lt then c else m).version ≠ .gt := by
      by_cases hlt : compareSemVer m.version c.version = .lt
      · rw [if_pos hlt]; simp [compareSemVer_refl]
      · rw [if_neg hlt, compareSemVer_swap]
        rcases h : compareSemVer m.version c.version with _ | _ | _
        · exact absurd h hlt
        · simp [Ordering.swap]
        · simp [Ordering.swap]
    have hbest : ∀ y ∈ (if compareSemVer m.version c.version = .lt then c else m) :: cs,
        compareSemVer y.version
          ((cs.foldl (fun b x =>
            if compareSemVer b.version x.version = .lt then x else b)
            (if compareSemVer m.version c.version = .lt then c else m))).version ≠ .gt :=
      ih _
    have hbm := hbest _ (List.mem_cons_self _ _)
    rcases List.mem_cons.mp hx with h | h
    · rw [h]
      exact compareSemVer_le_trans hm hbm
    · rcases List.mem_cons.mp h with h2 | h2
      · rw [h2]
        exact compareSemVer_le_trans hc hbm
      · exact hbest x (List.mem_cons_of_mem _ h2)

theorem resolve_of_filter_nil {sat : SemVer → Bool} {cands : List NakCandidate}
    (hf : cands.filter (fun c => sat c.version) = []) :
    resolve sat cands = .error .noMatch := by
  unfold resolve
  rw [hf]

theorem resolve_of_filter_cons {sat : SemVer → Bool} {cands : List NakCandidate}
    {m : NakCandidate} {rest : List NakCandidate}
    (hf : cands.filter (fun c => sat c.version) = m :: rest) :
    resolve sat cands =
      if (m :: rest).any
          (fun c => decide (compareSemVer c.version (selectBest m rest).version = .eq) &&
            decide (c ≠ selectBest m rest)) then
        .error .ambiguousSources
      else
        .ok (selectBest m rest) := by
  unfold resolve
  rw [hf]

theorem resolve_ok_iff (sat : SemVer → Bool) (cands : List NakCandidate)
    (c : NakCandidate) :
    resolve sat cands = .ok c ↔
      c ∈ cands ∧ sat c.version = true ∧
        (∀ d ∈ cands, sat d.version = true →
          compareSemVer d.version c.version ≠ .gt) ∧
        (∀ d ∈ cands, sat d.version = true → d.version = c.version → d = c) := by
  constructor
  · intro h
    rcases hf : cands.filter (fun x => sat x.version) with _ | ⟨m, rest⟩
    · rw [resolve_of_filter_nil hf] at h
      exact absurd h (by simp)
    · rw [resolve_of_filter_cons hf] at h
      split at h
      · exact absurd h (by simp)
      · rename_i hany
        rw [Except.ok.injEq] at h
        subst h
        have hbmem := selectBest_mem m rest
        rw [← hf] at hbmem
        rw [List.mem_filter] at hbmem
        refine ⟨hbmem.1, hbmem.2, ?_, ?_⟩
        · intro d hd hsat
          have hdf : d ∈ cands.filter (fun x => sat x.version) :=
            List.mem_filter.mpr ⟨hd, hsat⟩
          rw [hf] at hdf
          exact selectBest_max m rest d hdf
        · intro d hd hsat hver
          by_contra hne
          apply hany
          rw [List.any_eq_true]
          refine ⟨d, ?_, ?_⟩
          · have hdf : d ∈ cands.filter (fun x => sat x.version) :=
              List.mem_filter.mpr ⟨hd, hsat⟩
            rw [hf] at hdf
            exact hdf
          · rw [Bool.and_eq_true, decide_eq_true_eq, decide_eq_true_eq]
            exact ⟨by rw [hver]; exact compareSemVer_refl _, hne⟩
  · rintro ⟨hc, hsat, hmax, htie⟩
    rcases hf : cands.filter (fun x => sat x.version) with _ | ⟨m, rest⟩
    · exfalso
      have : c ∈ cands.filter (fun x => sat x.version) :=
        List.mem_filter.mpr ⟨hc, hsat⟩
      rw [hf] at this
      exact absurd this (List.not_mem_nil c)
    · rw [resolve_of_filter_cons hf]
      have hbmem := selectBest_mem m rest
      have hbcands : selectBest m rest ∈ cands ∧
          sat (selectBest m rest).version = true := by
        have := hbmem
        rw [← hf, List.mem_filter] at this
        exact this
      have hcf : c ∈ m :: rest := by
        have : c ∈ cands.filter (fun x => sat x.version) :=
          List.mem_filter.mpr ⟨hc, hsat⟩
        rw [hf] at this
        exact this
      have hvb : (selectBest m rest).version = c.version :=
        compareSemVer_eq_of_le_ge (hmax _ hbcands.1 hbcands.2)
          (selectBest_max m rest c hcf)
      have hcb : selectBest m rest = c := htie _ hbcands.1 hbcands.2 hvb
      split
      · rename_i hany
        exfalso
        rw [List.any_eq_true] at hany
        obtain ⟨x, hxmem, hx⟩ := hany
        rw [Bool.and_eq_true, decide_eq_true_eq, decide_eq_true_eq] at hx
        have hxcands : x ∈ cands ∧ sat x.version = true := by
          have := hxmem
          rw [← hf, List.mem_filter] at this
          exact this
        have hxv : x.version = c.version := by
          rw [← hcb]
          exact compareSemVer_eq_of hx.1
        exact hx.2 ((htie x hxcands.1 hxcands.2 hxv).trans hcb.symm)
      · rw [hcb]

theorem resolve_noMatch_iff (sat : SemVer → Bool) (cands : List NakCandidate) :
    resolve sat cands = .error .noMatch ↔
      ∀ d ∈ cands, sat d.version = false := by
  constructor
  · intro h
    rcases hf : cands.filter (fun x => sat x.version) with _ | ⟨m, rest⟩
    · intro d hd
      by_contra hne
      have hsat : sat d.version = true := by
        cases hval : sat d.version
        · exact absurd hval hne
        · rfl
      have : d ∈ cands.filter (fun x => sat x.version) :=
        List.mem_filter.mpr ⟨hd, hsat⟩
      rw [hf] at this
      exact absurd this (List.not_mem_nil d)
    · rw [resolve_of_filter_cons hf] at h
      split at h <;> simp at h
  · intro hall
    refine resolve_of_filter_nil (List.filter_eq_nil.mpr ?_)
    intro d hd
    rw [hall d hd]
    simp

theorem resolve_amb_iff (sat : SemVer → Bool) (cands : List NakCandidate) :
    resolve sat cands = .error .ambiguousSources ↔
      ∃ x y, x ∈ cands ∧ y ∈ cands ∧ x ≠ y ∧ sat x.version = true ∧
        sat y.version = true ∧ x.version = y.version ∧
        ∀ e ∈ cands, sat e.version = true →
          compareSemVer e.version x.version ≠ .gt := by
  constructor
  · intro h
    rcases hf : cands.filter (fun x => sat x.version) with _ | ⟨m, rest⟩
    · rw [resolve_of_filter_nil hf] at h
      simp at h
    · rw [resolve_of_filter_cons hf] at h
      split at h
      · rename_i hany
        rw [List.any_eq_true] at hany
        obtain ⟨x, hxmem, hx⟩ := hany
        rw [Bool.and_eq_true, decide_eq_true_eq, decide_eq_true_eq] at hx
        have hxcands : x ∈ cands ∧ sat x.version = true := by
          have := hxmem
          rw [← hf, List.mem_filter] at this
          exact this
        have hbcands : selectBest m rest ∈ cands ∧
            sat (selectBest m rest).version = true := by
          have := selectBest_mem m rest
          rw [← hf, List.mem_filter] at this
          exact this
        have hxv : x.version = (selectBest m rest).version :=
          compareSemVer_eq_of hx.1
        refine ⟨x, selectBest m rest, hxcands.1, hbcands.1, hx.2, hxcands.2,
          hbcands.2, hxv, ?_⟩
        intro e he hesat
        have hef : e ∈ m :: rest := by
          have : e ∈ cands.filter (fun z => sat z.version) :=
            List.mem_filter.mpr ⟨he, hesat⟩
          rw [hf] at this
          exact this
        rw [hxv]
        exact selectBest_max m rest e hef
      · simp at h
  · rintro ⟨x, y, hxc, hyc, hne, hsx, hsy, hv, hmax⟩
    rcases hf : cands.filter (fun z => sat z.version) with _ | ⟨m, rest⟩
    · exfalso
      have : x ∈ cands.filter (fun z => sat z.version) :=
        List.mem_filter.mpr ⟨hxc, hsx⟩
      rw [hf] at this
      exact absurd this (List.not_mem_nil x)
    · rw [resolve_of_filter_cons hf]
      have hbcands : selectBest m rest ∈ cands ∧
          sat (selectBest m rest).version = true := by
        have := selectBest_mem m rest
        rw [← hf, List.mem_filter] at this
        exact this
      have hxf : x ∈ m :: rest := by
        have : x ∈ cands.filter (fun z => sat z.version) :=
          List.mem_filter.mpr ⟨hxc, hsx⟩
        rw [hf] at this
        exact this
      have hyf : y ∈ m :: rest := by
        have : y ∈ cands.filter (fun z => sat z.version) :=
          List.mem_filter.mpr ⟨hyc, hsy⟩
        rw [hf] at this
        exact this
      have hxv : x.version = (selectBest m rest).version :=
        compareSemVer_eq_of_le_ge (selectBest_max m rest x hxf)
          (hmax _ hbcands.1 hbcands.2)
      have hyv : y.version = (selectBest m rest).version := by
        rw [← hv]
        exact hxv
      have hany : (m :: rest).any
          (fun c => decide (compareSemVer c.version (selectBest m rest).version = .eq) &&
            decide (c ≠ selectBest m rest)) = true := by
        rw [List.any_eq_true]
        by_cases hxb : x = selectBest m rest
        · refine ⟨y, hyf, ?_⟩
          rw [Bool.and_eq_true, decide_eq_true_eq, decide_eq_true_eq]
          refine ⟨by rw [hyv]; exact compareSemVer_refl _, ?_⟩
          intro hyb
          exact hne (hxb.trans hyb.symm)
        · refine ⟨x, hxf, ?_⟩
          rw [Bool.and_eq_true, decide_eq_true_eq, decide_eq_true_eq]
          exact ⟨by rw [hxv]; exact compareSemVer_refl _, hxb⟩
      rw [if_pos hany]

theorem resolve_perm (sat : SemVer → Bool) {l1 l2 : List NakCandidate}
    (hp : l1.Perm l2) : resolve sat l1 = resolve sat l2 := by
  cases h : resolve sat l1 with
  | ok c =>
    rw [resolve_ok_iff] at h
    obtain ⟨hc, hsat, hmax, htie⟩ := h
    have h2 : resolve sat l2 = .ok c := by
      rw [resolve_ok_iff]
      exact ⟨hp.mem_iff.mp hc, hsat,
        fun d hd hs => hmax d (hp.mem_iff.mpr hd) hs,
        fun d hd hs hv => htie d (hp.mem_iff.mpr hd) hs hv⟩
    exact h2.symm
  | error e =>
    cases e with
    | noMatch =>
      rw [resolve_noMatch_iff] at h
      have h2 : resolve sat l2 = .error .noMatch :=
        (resolve_noMatch_iff sat l2).mpr
          (fun d hd => h d (hp.mem_iff.mpr hd))
      exact h2.symm
    | ambiguousSources =>
      rw [resolve_amb_iff] at h
      obtain ⟨x, y, hx, hy, hne, hsx, hsy, hv, hmax⟩ := h
      have h2 : resolve sat l2 = .error .ambiguousSources :=
        (resolve_amb_iff sat l2).mpr
          ⟨x, y, hp.mem_iff.mp hx, hp.mem_iff.mp hy, hne, hsx, hsy, hv,
            fun e he hs => hmax e (hp.mem_iff.mpr he) hs⟩
      exact h2.symm

/-- C2 (amended): `resolve` returns a candidate only if it satisfies the
range and its version is highest (by standard semver precedence) among the
satisfying candidates; it fails with `NoMatch` when no candidate satisfies
the range, and with `AmbiguousSources` when two distinct candidates share
the identical highest satisfying version; in particular, requirement
`^1.2.0` (i.e. `>=1.2.0 <2.0.0`) over candidates
`{1.2.0, 1.2.5, 1.3.0, 2.0.0}` resolves to `1.3.0` — the highest satisfying
version — not `1.2.5` as the claim's example states. -/
theorem C2_resolver_amended :
    (∀ (sat : SemVer → Bool) (cands : List NakCandidate) (c : NakCandidate),
      resolve sat cands = .ok c →
        c ∈ cands ∧ sat c.version = true ∧
          ∀ d ∈ cands, sat d.version = true →
            compareSemVer d.version c.version ≠ .gt) ∧
    (∀ (sat : SemVer → Bool) (cands : List NakCandidate),
      (∀ d ∈ cands, sat d.version = false) →
        resolve sat cands = .error .noMatch) ∧
    (∀ (sat : SemVer → Bool) (cands : List NakCandidate)
      (x y : NakCandidate), x ∈ cands → y ∈ cands → x ≠ y →
        sat x.version = true → sat y.version = true →
        x.version = y.version →
        (∀ e ∈ cands, sat e.version = true →
          compareSemVer e.version x.version ≠ .gt) →
        resolve sat cands = .error .ambiguousSources) ∧
    resolve (caretSat 1 2 0) exampleCandidates =
      .ok ⟨⟨1, 3, 0, []⟩, "https://naks.example/1.3.0", "d130"⟩ := by
  refine ⟨?_, ?_, ?_, by decide⟩
  · intro sat cands c h
    have hh := (resolve_ok_iff sat cands c).mp h
    exact ⟨hh.1, hh.2.1, hh.2.2.1⟩
  · intro sat cands hall
    exact (resolve_noMatch_iff sat cands).mpr hall
  · intro sat cands x y hx hy hne hsx hsy hv hmax
    exact (resolve_amb_iff sat cands).mpr
      ⟨x, y, hx, hy, hne, hsx, hsy, hv, hmax⟩

/-- C2 counterexample: the claim's example is false on the specified
algorithm — requirement `^1.2.0` (glossed by the spec itself as
`>=1.2.0 <2.0.0`) over candidates `{1.2.0, 1.2.5, 1.3.0, 2.0.0}` does not
resolve to `1.2.5`, because `1.3.0` also satisfies the range and is
higher. -/
theorem C2_counterexample :
    resolve (caretSat 1 2 0) exampleCandidates ≠
      .ok ⟨⟨1, 2, 5, []⟩, "https://naks.example/1.2.5", "d125"⟩ := by
  decide

/-- C2 witness: the amended theorem applied at the spec's own example. -/
theorem C2_witness :
    (⟨⟨1, 3, 0, []⟩, "https://naks.example/1.3.0", "d130"⟩ : NakCandidate) ∈
        exampleCandidates ∧
      caretSat 1 2 0 ⟨1, 3, 0, []⟩ = true := by
  have h := C2_resolver_amended.1 (caretSat 1 2 0) exampleCandidates
    ⟨⟨1, 3, 0, []⟩, "https://naks.example/1.3.0", "d130"⟩ (by decide)
  exact ⟨h.1, h.2.1⟩

/-- C3: `resolve` is invariant under permutation of the candidate list —
any two calls on permuted candidate sets return the same candidate or the
same error. -/
theorem C3_resolve_perm_invariant :
    ∀ (sat : SemVer → Bool) (l1 l2 : List NakCandidate),
      l1.Perm l2 → resolve sat l1 = resolve sat l2 :=
  fun sat _ _ hp => resolve_perm sat hp

/-- C3 witness: permutation invariance at a concrete pair of permuted
candidate lists. -/
theorem C3_witness :
    resolve (caretSat 1 2 0)
        [⟨⟨1, 2, 0, []⟩, "u1", "d1"⟩, ⟨⟨1, 2, 5, []⟩, "u2", "d2"⟩] =
      resolve (caretSat 1 2 0)
        [⟨⟨1, 2, 5, []⟩, "u2", "d2"⟩, ⟨⟨1, 2, 0, []⟩, "u1", "d1"⟩] :=
  C3_resolve_perm_invariant (caretSat 1 2 0) _ _ (List.Perm.swap _ _ _)

theorem u32_length (n : Nat) : (u32 n).length = 4 := rfl

theorem u32_mem_lt {n x : Nat} (hx : x ∈ u32 n) : x < 256 := by
  simp [u32] at hx
  rcases hx with h | h | h | h <;> subst h <;> omega

theorem digestValue_u32 {n : Nat} (h : n < 4294967296) :
    digestValue (u32 n) = n := by
  simp [digestValue, u32, List.foldl]
  omega

theorem checksum_lt (l : List Nat) : checksum l < 4294967296 := by
  unfold checksum
  omega

theorem readU32_u32 (n : Nat) (h : n < 4294967296) (rest : List Nat) :
    readU32 (u32 n ++ rest) = some (n, rest) := by
  simp only [u32, List.cons_append, List.nil_append, readU32,
    Option.some.injEq, Prod.mk.injEq]
  exact ⟨by omega, trivial⟩

theorem readBytes_exact (l rest : List Nat) :
    readBytes l.length (l ++ rest) = some (l, rest) := by
  unfold readBytes
  rw [if_pos (by simp), List.take_left, List.drop_left]

theorem readFormat_formatTag (f : Format) : readFormat (formatTag f) = some f := by
  cases f <;> rfl

theorem readEntryHeader_encode (e : PayloadEntry) (rest : List Nat)
    (h1 : e.path.length < 4294967296) (h2 : e.data.length < 4294967296)
    (h3 : e.mode < 4294967296) :
    readEntryHeader (encodeEntryHeader e ++ rest) =
      some ((e.path, e.data.length, e.mode), rest) := by
  unfold readEntryHeader encodeEntryHeader
  simp only [List.append_assoc]
  rw [readU32_u32 _ h1]
  simp only [Option.some_bind]
  rw [readBytes_exact]
  simp only [Option.some_bind]
  rw [readU32_u32 _ h2]
  simp only [Option.some_bind]
  rw [readU32_u32 _ h3]
  simp only [Option.some_bind]

theorem readEntryHeaders_encode (es : List PayloadEntry) (rest : List Nat)
    (hb : ∀ e ∈ es, e.path.length < 4294967296 ∧
      e.data.length < 4294967296 ∧ e.mode < 4294967296) :
    readEntryHeaders es.length ((es.map encodeEntryHeader).flatten ++ rest) =
      some (es.map (fun e => (e.path, e.data.length, e.mode)), rest) := by
  induction es with
  | nil => rfl
  | cons e es ih =>
    have he := hb e (List.mem_cons_self e es)
    rw [List.length_cons, List.map_cons, List.flatten_cons, List.map_cons]
    rw [readEntryHeaders, List.append_assoc,
      readEntryHeader_encode e _ he.1 he.2.1 he.2.2]
    simp only [Option.some_bind]
    rw [ih (fun x hx => hb x (List.mem_cons_of_mem e hx))]
    simp only [Option.some_bind]

theorem splitPayload_encode (es : List PayloadEntry) (rest : List Nat) :
    splitPayload (es.map (fun e => (e.path, e.data.length, e.mode)))
        ((es.map PayloadEntry.data).flatten ++ rest) =
      some (es, rest) := by
  induction es with
  | nil => rfl
  | cons e es ih =>
    rw [List.map_cons, List.map_cons, List.flatten_cons, splitPayload,
      List.append_assoc]
    dsimp only
    rw [readBytes_exact e.data ((es.map PayloadEntry.data).flatten ++ rest)]
    simp only [Option.some_bind]
    rw [ih]
    simp only [Option.some_bind]

theorem wellFormed_spec {a : PackageArchive} (h : wellFormed a = true) :
    (∀ x ∈ a.manifest_bytes, x < 256) ∧
      a.manifest_bytes.length < 4294967296 ∧
      a.payload.length < 4294967296 ∧
      ∀ e ∈ a.payload,
        (∀ x ∈ e.path, x < 256) ∧ (∀ x ∈ e.data, x < 256) ∧
          e.path.length < 4294967296 ∧ e.data.length < 4294967296 ∧
          e.mode < 4294967296 ∧ validPath e.path = true := by
  unfold wellFormed at h
  simp only [Bool.and_eq_true, List.all_eq_true, decide_eq_true_eq] at h
  exact ⟨h.1.1.1, h.1.1.2, h.1.2, fun e he =>
    ⟨(h.2 e he).1.1.1.1.1, (h.2 e he).1.1.1.1.2, (h.2 e he).1.1.1.2,
      (h.2 e he).1.1.2, (h.2 e he).1.2, (h.2 e he).2⟩⟩

theorem parseBody_encodeBody (fmt : Format) (manifest : List Nat)
    (entries : List PayloadEntry)
    (hm : manifest.length < 4294967296)
    (hc : entries.length < 4294967296)
    (hb : ∀ e ∈ entries, e.path.length < 4294967296 ∧
      e.data.length < 4294967296 ∧ e.mode < 4294967296)
    (hp : ∀ e ∈ entries, validPath e.path = true) :
    parseBody (encodeBody fmt manifest entries) =
      .ok ⟨fmt, manifest, entries⟩ := by
  unfold parseBody encodeBody
  rw [List.cons_append]
  dsimp only
  rw [readFormat_formatTag]
  dsimp only
  simp only [List.append_assoc]
  rw [readU32_u32 _ hm]
  dsimp only
  rw [readBytes_exact manifest _]
  dsimp only
  rw [readU32_u32 _ hc]
  dsimp only
  rw [readEntryHeaders_encode entries _ hb]
  dsimp only
  have hall : ((entries.map (fun e => (e.path, e.data.length, e.mode))).all
      (fun h => validPath h.1)) = true := by
    rw [List.all_eq_true]
    intro x hx
    rw [List.mem_map] at hx
    obtain ⟨e, he, rfl⟩ := hx
    exact hp e he
  rw [if_pos hall]
  have hsplit : splitPayload
      (entries.map (fun e => (e.path, e.data.length, e.mode)))
      (decompress (compress (entries.map PayloadEntry.data).flatten)) =
      some (entries, []) := by
    show splitPayload _ ((entries.map PayloadEntry.data).flatten) = _
    rw [← List.append_nil (entries.map PayloadEntry.data).flatten,
      splitPayload_encode]
  rw [hsplit]
  dsimp only
  rw [if_pos rfl]

theorem decode_encode (fmt : Format) (manifest : List Nat)
    (entries : List PayloadEntry)
    (hm : manifest.length < 4294967296)
    (hc : entries.length < 4294967296)
    (hb : ∀ e ∈ entries, e.path.length < 4294967296 ∧
      e.data.length < 4294967296 ∧ e.mode < 4294967296)
    (hp : ∀ e ∈ entries, validPath e.path = true) :
    decode (encode fmt manifest entries) = .ok ⟨fmt, manifest, entries⟩ := by
  unfold decode encode
  have hb1 : 1 ≤ (encodeBody fmt manifest entries).length := by
    unfold encodeBody
    rw [List.cons_append]
    simp
  rw [if_neg (by rw [List.length_append, u32_length]; omega)]
  have harg : (encodeBody fmt manifest entries ++
      u32 (checksum (encodeBody fmt manifest entries))).length - 4 =
      (encodeBody fmt manifest entries).length := by
    rw [List.length_append, u32_length]
    omega
  rw [harg, List.take_left, List.drop_left]
  dsimp only
  rw [digestValue_u32 (checksum_lt _), if_pos rfl]
  exact parseBody_encodeBody fmt manifest entries hm hc hb hp

/-- C4: for every well-formed archive whose payload entries are supplied in
canonical path-lexicographic order, decoding the encoding is the identity:
`decode (encode a.format a.manifest_bytes a.payload) = .ok a`. -/
theorem C4_roundtrip :
    ∀ a : PackageArchive, wellFormed a = true → sortedByPath a.payload = true →
      decode (encode a.format a.manifest_bytes a.payload) = .ok a := by
  intro a hwf _
  obtain ⟨hmb, hml, hpl, hent⟩ := wellFormed_spec hwf
  exact decode_encode a.format a.manifest_bytes a.payload hml hpl
    (fun e he => ⟨(hent e he).2.2.1, (hent e he).2.2.2.1,
      (hent e he).2.2.2.2.1⟩)
    (fun e he => (hent e he).2.2.2.2.2)

/-- C4 witness: the round-trip theorem applied to a concrete two-entry
archive in canonical path order. -/
theorem C4_witness :
    wellFormed ⟨Format.nap, [1, 2, 3],
        [⟨[97, 47, 98], [5, 6], 420⟩, ⟨[99], [], 493⟩]⟩ = true ∧
      sortedByPath [⟨[97, 47, 98], [5, 6], 420⟩, ⟨[99], [], 493⟩] = true ∧
      decode (encode Format.nap [1, 2, 3]
          [⟨[97, 47, 98], [5, 6], 420⟩, ⟨[99], [], 493⟩]) =
        .ok ⟨Format.nap, [1, 2, 3],
          [⟨[97, 47, 98], [5, 6], 420⟩, ⟨[99], [], 493⟩]⟩ :=
  ⟨by decide, by decide,
    C4_roundtrip ⟨Format.nap, [1, 2, 3],
      [⟨[97, 47, 98], [5, 6], 420⟩, ⟨[99], [], 493⟩]⟩ (by decide) (by decide)⟩

theorem sum_set_add (l : List Nat) (i b : Nat) (h : i < l.length) :
    (l.set i b).sum + l.getD i 0 = l.sum + b := by
  induction l generalizing i with
  | nil => simp at h
  | cons x xs ih =>
    cases i with
    | zero => simp [List.set, List.getD_cons_zero, List.sum_cons]; omega
    | succ j =>
      simp only [List.set, List.sum_cons, List.getD_cons_succ]
      have := ih j (by simpa using h)
      omega

theorem checksum_set_ne (l : List Nat) (i b : Nat) (h : i < l.length)
    (hb : b < 256) (hold : l.getD i 0 < 256) (hne : b ≠ l.getD i 0) :
    checksum (l.set i b) ≠ checksum l := by
  unfold checksum
  have hs := sum_set_add l i b h
  intro heq
  omega

theorem encodeBody_length_pos (fmt : Format) (manifest : List Nat)
    (entries : List PayloadEntry) :
    1 ≤ (encodeBody fmt manifest entries).length := by
  unfold encodeBody
  rw [List.cons_append]
  simp

theorem encodeEntryHeader_mem_lt {e : PayloadEntry}
    (hpath : ∀ x ∈ e.path, x < 256) : ∀ x ∈ encodeEntryHeader e, x < 256 := by
  intro x hx
  unfold encodeEntryHeader at hx
  simp only [List.mem_append] at hx
  rcases hx with ((hx | hx) | hx) | hx
  · exact u32_mem_lt hx
  · exact hpath x hx
  · exact u32_mem_lt hx
  · exact u32_mem_lt hx

theorem encodeBody_mem_lt {fmt : Format} {manifest : List Nat}
    {entries : List PayloadEntry}
    (hmb : ∀ x ∈ manifest, x < 256)
    (hent : ∀ e ∈ entries, (∀ x ∈ e.path, x < 256) ∧ ∀ x ∈ e.data, x < 256) :
    ∀ x ∈ encodeBody fmt manifest entries, x < 256 := by
  intro x hx
  unfold encodeBody compress at hx
  rw [List.cons_append] at hx
  simp only [List.mem_cons, List.mem_append, List.mem_flatten,
    List.mem_map] at hx
  rcases hx with hx | ((((hx | hx) | hx) | ⟨l, ⟨e, he, rfl⟩, hx⟩) | ⟨l, ⟨e, he, rfl⟩, hx⟩)
  · rw [hx]
    cases fmt <;> decide
  · exact u32_mem_lt hx
  · exact hmb x hx
  · exact u32_mem_lt hx
  · exact encodeEntryHeader_mem_lt (hent e he).1 x hx
  · exact (hent e he).2 x hx

theorem digestValue_u32_set_ne {n j b : Nat} (hn : n < 4294967296)
    (hj : j < 4) (hb : b < 256) (hne : b ≠ (u32 n).getD j 0) :
    digestValue ((u32 n).set j b) ≠ n := by
  interval_cases j <;>
    simp only [u32, List.set, List.getD_cons_zero, List.getD_cons_succ,
      digestValue, List.foldl] at hne ⊢ <;>
    omega

theorem decode_set_digestMismatch (fmt : Format) (manifest : List Nat)
    (entries : List PayloadEntry)
    (hmb : ∀ x ∈ manifest, x < 256)
    (hent : ∀ e ∈ entries, (∀ x ∈ e.path, x < 256) ∧ ∀ x ∈ e.data, x < 256) :
    ∀ i b, i < (encode fmt manifest entries).length → b < 256 →
      b ≠ (encode fmt manifest entries).getD i 0 →
      decode ((encode fmt manifest entries).set i b) =
        .error .digestMismatch := by
  intro i b hi hb hne
  have hbytes : ∀ x ∈ encodeBody fmt manifest entries, x < 256 :=
    encodeBody_mem_lt hmb hent
  have hpos := encodeBody_length_pos fmt manifest entries
  unfold encode at hi hne ⊢
  by_cases hcase : i < (encodeBody fmt manifest entries).length
  · rw [List.set_append_left i b hcase]
    unfold decode
    rw [if_neg (by
      rw [List.length_append, List.length_set, u32_length]
      omega)]
    have harg : ((encodeBody fmt manifest entries).set i b ++
        u32 (checksum (encodeBody fmt manifest entries))).length - 4 =
        ((encodeBody fmt manifest entries).set i b).length := by
      rw [List.length_append, u32_length]
      omega
    rw [harg, List.take_left, List.drop_left]
    dsimp only
    rw [digestValue_u32 (checksum_lt _)]
    have hold : (encodeBody fmt manifest entries).getD i 0 < 256 := by
      refine hbytes _ ?_
      rw [List.getD_eq_getElem _ 0 hcase]
      exact List.getElem_mem hcase
    have hne' : b ≠ (encodeBody fmt manifest entries).getD i 0 := by
      rw [List.getD_append _ _ 0 i hcase] at hne
      exact hne
    rw [if_neg (checksum_set_ne _ i b hcase hb hold hne')]
  · have hge : (encodeBody fmt manifest entries).length ≤ i :=
      Nat.le_of_not_lt hcase
    have hj : i - (encodeBody fmt manifest entries).length < 4 := by
      rw [List.length_append, u32_length] at hi
      omega
    rw [List.set_append_right i b hge]
    unfold decode
    rw [if_neg (by
      rw [List.length_append, List.length_set, u32_length]
      omega)]
    have harg : (encodeBody fmt manifest entries ++
        (u32 (checksum (encodeBody fmt manifest entries))).set
          (i - (encodeBody fmt manifest entries).length) b).length - 4 =
        (encodeBody fmt manifest entries).length := by
      rw [List.length_append, List.length_set, u32_length]
      omega
    rw [harg, List.take_left]
    have hdrop : (encodeBody fmt manifest entries ++
        (u32 (checksum (encodeBody fmt manifest entries))).set
          (i - (encodeBody fmt manifest entries).length) b).drop
          (encodeBody fmt manifest entries).length =
        (u32 (checksum (encodeBody fmt manifest entries))).set
          (i - (encodeBody fmt manifest entries).length) b :=
      List.drop_left _ _
    rw [hdrop]
    dsimp only
    have hne' : b ≠ (u32 (checksum (encodeBody fmt manifest entries))).getD
        (i - (encodeBody fmt manifest entries).length) 0 := by
      rw [List.getD_append_right _ _ 0 i hge] at hne
      exact hne
    have hdig := digestValue_u32_set_ne
      (checksum_lt (encodeBody fmt manifest entries)) hj hb hne'
    rw [if_neg (fun heq => hdig heq.symm)]

/-- C5: flipping any single byte of an encoded archive causes `decode` to
fail with `DigestMismatch`; in particular it never returns a
successfully-decoded-but-different payload, the digest being checked
before any payload byte is parsed. -/
theorem C5_tamper_digestMismatch :
    ∀ a : PackageArchive, wellFormed a = true →
      ∀ i b, i < (encode a.format a.manifest_bytes a.payload).length →
        b < 256 →
        b ≠ (encode a.format a.manifest_bytes a.payload).getD i 0 →
        decode ((encode a.format a.manifest_bytes a.payload).set i b) =
          .error .digestMismatch := by
  intro a hwf
  obtain ⟨hmb, _, _, hent⟩ := wellFormed_spec hwf
  exact decode_set_digestMismatch a.format a.manifest_bytes a.payload hmb
    (fun e he => ⟨(hent e he).1, (hent e he).2.1⟩)

/-- C5 witness: flipping the first byte of a concrete encoded archive is
detected as a digest mismatch. -/
theorem C5_witness :
    decode ((encode Format.nap [1, 2] [⟨[97], [7], 420⟩]).set 0 1) =
      .error .digestMismatch :=
  C5_tamper_digestMismatch ⟨Format.nap, [1, 2], [⟨[97], [7], 420⟩]⟩
    (by decide) 0 1 (by decide) (by decide) (by decide)

theorem splitPayload_paths :
    ∀ (hs : List (List Nat × Nat × Nat)) (s : List Nat)
      (es : List PayloadEntry) (l : List Nat),
      splitPayload hs s = some (es, l) →
        es.map PayloadEntry.path = hs.map Prod.fst := by
  intro hs
  induction hs with
  | nil =>
    intro s es l h
    unfold splitPayload at h
    rw [Option.some.injEq, Prod.mk.injEq] at h
    rw [← h.1]
    rfl
  | cons hd tl ih =>
    intro s es l h
    unfold splitPayload at h
    cases hrb : readBytes hd.2.1 s with
    | none => rw [hrb] at h; simp at h
    | some d =>
      rw [hrb] at h
      simp only [Option.some_bind] at h
      cases hsp : splitPayload tl d.2 with
      | none => rw [hsp] at h; simp at h
      | some t =>
        rw [hsp] at h
        simp only [Option.some_bind, Option.some.injEq, Prod.mk.injEq] at h
        rw [← h.1, List.map_cons, List.map_cons]
        exact congrArg (List.cons hd.1) (ih d.2 t.1 t.2 hsp)

theorem parseBody_ok_validPaths {body : List Nat} {a : PackageArchive}
    (h : parseBody body = .ok a) :
    ∀ e ∈ a.payload, validPath e.path = true := by
  unfold parseBody at h
  split at h
  · exact absurd h (by simp)
  · split at h
    · exact absurd h (by simp)
    · split at h
      · exact absurd h (by simp)
      · split at h
        · exact absurd h (by simp)
        · split at h
          · exact absurd h (by simp)
          · split at h
            · exact absurd h (by simp)
            · split at h
              · split at h
                · exact absurd h (by simp)
                · split at h
                  · rename_i hall hxopt entries leftover hsp hleft
                    rw [Except.ok.injEq] at h
                    subst h
                    intro e he
                    have hmap := splitPayload_paths _ _ _ _ hsp
                    have hpmem : e.path ∈ entries.map PayloadEntry.path :=
                      List.mem_map_of_mem PayloadEntry.path he
                    rw [hmap, List.mem_map] at hpmem
                    obtain ⟨hdr, hhmem, hh⟩ := hpmem
                    rw [List.all_eq_true] at hall
                    rw [← hh]
                    exact hall hdr hhmem
                  · exact absurd h (by simp)
              · exact absurd h (by simp)

theorem decode_ok_validPaths {s : List Nat} {a : PackageArchive}
    (h : decode s = .ok a) : ∀ e ∈ a.payload, validPath e.path = true := by
  unfold decode at h
  split at h
  · exact absurd h (by simp)
  · dsimp only at h
    split at h
    · exact parseBody_ok_validPaths h
    · exact absurd h (by simp)

/-- C6: `decode` rejects every archive containing a payload entry whose
relative path is absolute or contains a parent-directory (`..`) component
— whenever `decode` succeeds, every decoded entry path is a valid relative
path, and an encoded archive carrying an entry named `../../etc/passwd` is
rejected by `decode` with an error, before any extraction can take
place. -/
theorem C6_path_rejection :
    (∀ (s : List Nat) (a : PackageArchive), decode s = .ok a →
      ∀ e ∈ a.payload, validPath e.path = true) ∧
    decode (encode Format.nak []
        [⟨strBytes "../../etc/passwd", [1], 420⟩]) =
      .error .invalidPath :=
  ⟨fun _ _ h => decode_ok_validPaths h, by decide⟩

/-- C6 witness: the safety direction applied to a concrete successful
decode. -/
theorem C6_witness :
    ∀ e ∈ (PackageArchive.mk Format.nap [1, 2] [⟨[97], [7], 420⟩]).payload,
      validPath e.path = true :=
  C6_path_rejection.1 (encode Format.nap [1, 2] [⟨[97], [7], 420⟩])
    ⟨Format.nap, [1, 2], [⟨[97], [7], 420⟩]⟩ (by decide)

/-- C1 (amended): in the static build's `package_info`, `nah_manifest`,
`nah_platform` and `nah_config` depend on no other core component;
`nah_packaging` is not a leaf — it requires `nah_manifest`, `nah_config`,
`nah_platform` and `nah_contract`; `nah_materializer` depends on
`nah_packaging`; `nah_contract` depends on `nah_manifest`, `nah_config`
and `nah_platform` but on neither `nah_packaging` nor `nah_materializer`;
and the component dependency graph has no cycles. -/
theorem C1_component_graph_amended :
    coreRequires "nah_manifest" = [] ∧
    coreRequires "nah_platform" = [] ∧
    coreRequires "nah_config" = [] ∧
    coreRequires "nah_packaging" =
      ["nah_manifest", "nah_config", "nah_platform", "nah_contract"] ∧
    "nah_packaging" ∈ coreRequires "nah_materializer" ∧
    coreRequires "nah_contract" =
      ["nah_manifest", "nah_config", "nah_platform"] ∧
    acyclicComponents = true := by
  decide

/-- C1 counterexample: `nah_packaging` is not a leaf — its `requires` list
names other core components (in particular `nah_contract`), contradicting
the claim that the Package Codec depends on no other core component. -/
theorem C1_counterexample :
    coreRequires "nah_packaging" ≠ [] ∧
      "nah_contract" ∈ coreRequires "nah_packaging" := by
  decide

/-- C7: an uncached NAK is fetched over an encrypted (TLS) transport —
every network operation the modelled materializer performs is TLS, and in
the recipe's static component graph the materializer is the only component
whose `requires` list links the TLS / HTTP transport libraries
(`openssl::crypto`, `libcurl::libcurl`). -/
theorem C7_materializer_tls :
    (∀ (c : NakCandidate) (cached : List (SemVer × String)),
      (c.version, c.digest) ∉ cached →
        materializeNetOps c cached = [⟨c.source_uri, true⟩]) ∧
    (∀ (c : NakCandidate) (cached : List (SemVer × String)),
      ∀ op ∈ materializeNetOps c cached, op.tls = true) ∧
    tlsLinkingComponents = ["nah_materializer"] := by
  refine ⟨?_, ?_, by decide⟩
  · intro c cached h
    unfold materializeNetOps
    rw [if_neg h]
  · intro c cached op hop
    unfold materializeNetOps at hop
    split at hop
    · exact absurd hop (List.not_mem_nil op)
    · rw [List.mem_singleton] at hop
      rw [hop]

/-- C7 witness: the fetch clause applied to a concrete uncached
candidate. -/
theorem C7_witness :
    materializeNetOps ⟨⟨1, 0, 0, []⟩, "https://naks.example/e", "d"⟩ [] =
      [⟨"https://naks.example/e", true⟩] :=
  C7_materializer_tls.1 ⟨⟨1, 0, 0, []⟩, "https://naks.example/e", "d"⟩ []
    (by decide)

/-- C8 (amended): the composer's template variable set is `NAH_APP_ENTRY`,
`NAH_APP_ROOT`, `NAH_APP_ID` and `NAH_NAK_ROOT` (the last absent without a
NAK dependency) plus config pairs, and substitution applies to
`loader_exec`, `loader_args`, `cwd` and `environment`; the example SDK
publishes the six properties `nah:nak_id`, `nah:loader_exec`,
`nah:loader_args`, `nah:resource_root`, `nah:cwd`, `nah:environment` —
the four substitution targets plus `nak_id` and `resource_root` — and its
loader argument template uses exactly the four placeholders
`NAH_APP_ENTRY`, `NAH_APP_ROOT`, `NAH_APP_ID`, `NAH_NAK_ROOT`. -/
theorem C8_sdk_properties_amended :
    templateVarNames true [] =
      ["NAH_APP_ENTRY", "NAH_APP_ROOT", "NAH_APP_ID", "NAH_NAK_ROOT"] ∧
    templateVarNames false [] =
      ["NAH_APP_ENTRY", "NAH_APP_ROOT", "NAH_APP_ID"] ∧
    substitutionProps = ["loader_exec", "loader_args", "cwd", "environment"] ∧
    sdkProperties.map Prod.fst =
      ["nah:nak_id", "nah:loader_exec", "nah:loader_args",
       "nah:resource_root", "nah:cwd", "nah:environment"] ∧
    (sdkLoaderArgs.map placeholdersOf).flatten =
      ["NAH_APP_ENTRY", "NAH_APP_ROOT", "NAH_APP_ID", "NAH_NAK_ROOT"] := by
  decide

/-- C8 counterexample: the example SDK does not publish exactly the four
substitution-target properties — it also publishes `nah:nak_id` (and
`nah:resource_root`). -/
theorem C8_counterexample :
    "nah:nak_id" ∈ sdkProperties.map Prod.fst ∧
      sdkProperties.map Prod.fst ≠
        ["nah:loader_exec", "nah:loader_args", "nah:cwd",
         "nah:environment"] := by
  decide

/-- C9 (amended): `get_version` returns the whitespace-stripped contents
of the `VERSION` file when it can be read and `"1.0.0"` when reading
raises any exception, so the version is always a defined string; it is
empty only in the case where the file is read successfully and its
contents strip to the empty string. -/
theorem C9_get_version_amended :
    (∀ s, get_version (Except.ok s) = pyStrip s) ∧
    (∀ e, get_version (Except.error e) = "1.0.0") ∧
    (∀ r, get_version r = "" → ∃ s, r = Except.ok s ∧ pyStrip s = "") := by
  refine ⟨fun s => rfl, fun e => rfl, ?_⟩
  intro r h
  cases r with
  | ok s => exact ⟨s, rfl, h⟩
  | error e =>
    rw [show get_version (Except.error e) = "1.0.0" from rfl] at h
    exact absurd h (by decide)

/-- C9 counterexample: a `VERSION` file holding only whitespace strips to
the empty string, so the version is not always non-empty. -/
theorem C9_counterexample : get_version (Except.ok " \n") = "" := by
  decide

/-- C9 witness: the amended theorem's emptiness clause applied at the
whitespace-only file contents. -/
theorem C9_witness :
    ∃ s, (Except.ok " \n" : Except Unit String) = Except.ok s ∧
      pyStrip s = "" :=
  C9_get_version_amended.2.2 (Except.ok " \n") (by decide)

/-- C10: after `config_options` and `configure`, the `fPIC` option is
absent on Windows and absent whenever `shared=True`; and on every
non-Windows configuration, `generate` sets
`CMAKE_POSITION_INDEPENDENT_CODE` to true whenever `shared=True` or `fPIC`
is true, including the case where `fPIC` was removed, where the
`get_safe` lookup defaults to true. -/
theorem C10_fpic_pic :
    ∀ (os : String) (shared fpic : Bool),
      (os = "Windows" → (afterOptionConfig os shared fpic).fPIC = none) ∧
      (shared = true → (afterOptionConfig os shared fpic).fPIC = none) ∧
      (os ≠ "Windows" → shared = true ∨ fpic = true →
        ("CMAKE_POSITION_INDEPENDENT_CODE", true) ∈
          generateVars os (afterOptionConfig os shared fpic)) ∧
      (os ≠ "Windows" → (afterOptionConfig os shared fpic).fPIC = none →
        ("CMAKE_POSITION_INDEPENDENT_CODE", true) ∈
          generateVars os (afterOptionConfig os shared fpic)) := by
  intro os shared fpic
  unfold afterOptionConfig config_options configure generateVars
  by_cases hw : os = "Windows" <;> cases shared <;> cases fpic <;>
    simp [hw]

/-- C10 witness: the option pipeline at a concrete non-Windows shared
configuration — `fPIC` is removed and the toolchain still sets
`CMAKE_POSITION_INDEPENDENT_CODE` to true. -/
theorem C10_witness :
    (afterOptionConfig "Linux" true false).fPIC = none ∧
      ("CMAKE_POSITION_INDEPENDENT_CODE", true) ∈
        generateVars "Linux" (afterOptionConfig "Linux" true false) := by
  have h := C10_fpic_pic "Linux" true false
  exact ⟨h.2.1 rfl, h.2.2.1 (by decide) (Or.inl rfl)⟩

end Nah

